import Mathlib

/-!
Verification of the ElGamal-style public-key cryptosystem implemented in
`public-key-cryptosystem.py`: fast modular exponentiation, the Miller–Rabin
witness procedure and driver, the safe-prime search of `keygen`, key-pair
derivation, and blockwise encryption/decryption.

Randomness (`random.randrange`, `secrets.randbits`, `secrets.randbelow`) is
modelled by passing the drawn values explicitly.  A Python exception or a
non-terminating loop is modelled by `Option`, with `none` for "no value is
returned".
-/

/-- The list of binary digits of `n`, least significant first, with explicit
fuel (`natBitsLE n n` is the digit list of `n`; empty for `n = 0`).
Mirrors Python's `format(exponent, 'b')` read right to left. -/
def natBitsLE : Nat → Nat → List Bool
  | 0, _ => []
  | fuel + 1, n => if n = 0 then [] else decide (n % 2 = 1) :: natBitsLE fuel (n / 2)

/-- The character string `format(exponent, 'b')` as a list of bits, most
significant first: `"0"`, i.e. `[false]`, when the exponent is `0`. -/
def binary_exp (e : Nat) : List Bool :=
  if e = 0 then [false] else (natBitsLE e e).reverse

/-- One iteration of the `for bit in binary_exp` loop of `fast_exponent_mod`:
square the accumulator `d` modulo `modulus`, and multiply by `base` when the
current bit is 1.  (The counter `c` of the source is dead code for the
returned value and is omitted.) -/
def modexp_step (base modulus d : Nat) (bit : Bool) : Nat :=
  let d2 := (d * d) % modulus
  if bit then (d2 * base) % modulus else d2

/-- `fast_exponent_mod(base, exponent, modulus)` from the source: fold the
square-and-multiply step over the binary digits of the exponent, most
significant first, starting from `d = 1`. -/
def fast_exponent_mod (base exponent modulus : Nat) : Nat :=
  (binary_exp exponent).foldl (modexp_step base modulus) 1

example : fast_exponent_mod 2 7 101 = 27 := by decide
example : fast_exponent_mod 2 3 101 = 8 := by decide
example : fast_exponent_mod 3 0 7 = 1 := by decide
example : fast_exponent_mod 3 0 1 = 0 := by decide
example : fast_exponent_mod 5 117 1000 = 5 ^ 117 % 1000 := by decide

/-! ### Correctness of `fast_exponent_mod` (ModExp) -/

/-- The least-significant-first digit list reassembles to the original number. -/
theorem natBitsLE_foldr (fuel : Nat) : ∀ n, n ≤ fuel →
    (natBitsLE fuel n).foldr (fun bit acc => 2 * acc + cond bit 1 0) 0 = n := by
  induction fuel with
  | zero =>
    intro n h
    interval_cases n
    simp [natBitsLE]
  | succ fuel ih =>
    intro n h
    by_cases h0 : n = 0
    · simp [natBitsLE, h0]
    · have hlt : n / 2 < n := Nat.div_lt_self (Nat.pos_of_ne_zero h0) (by omega)
      have ihh := ih (n / 2) (by omega)
      simp only [natBitsLE, h0, if_false, List.foldr_cons, ihh]
      rcases Nat.mod_two_eq_zero_or_one n with h2 | h2 <;> simp [h2] <;> omega

/-- After one loop iteration from an accumulator holding `b ^ c % m`, the
accumulator holds `b ^ (2c + bit) % m`. -/
theorem modexp_step_pow (b m c : Nat) (bit : Bool) :
    modexp_step b m (b ^ c % m) bit = b ^ (2 * c + cond bit 1 0) % m := by
  unfold modexp_step
  have hsq : (b ^ c % m) * (b ^ c % m) % m = b ^ (2 * c) % m := by
    rw [← Nat.mul_mod, ← pow_add, two_mul]
  cases bit with
  | false => simpa using hsq
  | true =>
    simp only [cond_true, if_true]
    rw [hsq, Nat.mul_comm (b ^ (2 * c) % m) b, Nat.mul_mod_mod,
      Nat.mul_comm b (b ^ (2 * c)), ← pow_succ]

/-- The square-and-multiply fold computes `b ^ e % m`, where `e` is the value
of the processed bits appended to the bits already accounted for in `c`. -/
theorem foldl_modexp_step (b m : Nat) (bits : List Bool) : ∀ d c, d = b ^ c % m →
    bits.foldl (modexp_step b m) d =
      b ^ (bits.foldl (fun acc bit => 2 * acc + cond bit 1 0) c) % m := by
  induction bits with
  | nil => intro d c hd; simpa using hd
  | cons bit rest ih =>
    intro d c hd
    simp only [List.foldl_cons]
    exact ih _ _ (by rw [hd, modexp_step_pow])

/-- With modulus `1`, every iteration leaves the accumulator at `0` after the
first squaring, so the fold over a nonempty bit list returns `0`. -/
theorem foldl_modexp_step_one (b : Nat) (bits : List Bool) : ∀ d, bits ≠ [] →
    bits.foldl (modexp_step b 1) d = 0 := by
  induction bits with
  | nil => intro d h; exact absurd rfl h
  | cons bit rest ih =>
    intro d _
    rcases rest with _ | ⟨bit2, rest2⟩
    · cases bit <;> simp [modexp_step, Nat.mod_one]
    · simp only [List.foldl_cons]
      exact ih _ (by simp)

/-- The bit list fed to the fold is never empty (`format(0,'b')` is `"0"`). -/
theorem binary_exp_ne_nil (e : Nat) : binary_exp e ≠ [] := by
  by_cases h0 : e = 0
  · simp [binary_exp, h0]
  · obtain ⟨e', rfl⟩ := Nat.exists_eq_succ_of_ne_zero h0
    simp [binary_exp, natBitsLE]

/-- The most-significant-first fold of `binary_exp e` has value `e`. -/
theorem binary_exp_val (e : Nat) :
    (binary_exp e).foldl (fun acc bit => 2 * acc + cond bit 1 0) 0 = e := by
  by_cases h0 : e = 0
  · simp [binary_exp, h0]
  · simp only [binary_exp, h0, if_false, List.foldl_reverse]
    exact natBitsLE_foldr e e (Nat.le_refl e)

/-- `fast_exponent_mod` computes modular exponentiation. -/
theorem fast_exponent_mod_eq (base exponent modulus : Nat) :
    fast_exponent_mod base exponent modulus = base ^ exponent % modulus := by
  unfold fast_exponent_mod
  by_cases h1 : modulus = 1
  · subst h1
    rw [foldl_modexp_step_one base (binary_exp exponent) 1 (binary_exp_ne_nil exponent)]
    omega
  · have h10 : (1 : Nat) = base ^ 0 % modulus := by
      rw [pow_zero, Nat.one_mod_eq_one.mpr h1]
    rw [foldl_modexp_step base modulus (binary_exp exponent) 1 0 h10, binary_exp_val]

/-- C2. `fast_exponent_mod(base, exponent, modulus)` equals
`base ^ exponent mod modulus` for every base, every exponent, and every
modulus `>= 1` (for exponent `0` this is `1 mod modulus`). -/
theorem fast_exponent_mod_correct (base exponent modulus : Nat)
    (h : 1 ≤ modulus) :
    fast_exponent_mod base exponent modulus = base ^ exponent % modulus :=
  fast_exponent_mod_eq base exponent modulus

/-- C2 witness: concrete instance of `fast_exponent_mod_correct`. -/
theorem fast_exponent_mod_correct_witness :
    1 ≤ 1000 ∧ fast_exponent_mod 5 117 1000 = 5 ^ 117 % 1000 :=
  ⟨by decide, fast_exponent_mod_correct 5 117 1000 (by decide)⟩

/-! ### Decryption inverts encryption (ElGamal round trip per block) -/

/-- C1. For a prime `p`, a generator `g` (an invertible element, i.e.
`p` does not divide `g`), a secret exponent `d < p`, public value
`e2 = modexp(g, d, p)`, block `m < p` and ephemeral exponent `k < p`, the
decryption formula of the source applied to `c1 = modexp(g, k, p)` and
`c2 = (modexp(e2, k, p) * (m % p)) % p` recovers `m`. -/
theorem decrypt_inverts_encrypt (p g d k m e2 c1 c2 : Nat) (hp : Nat.Prime p)
    (hg : ¬ p ∣ g) (hd : d < p) (hk : k < p) (hm : m < p)
    (he2 : e2 = fast_exponent_mod g d p)
    (hc1 : c1 = fast_exponent_mod g k p)
    (hc2 : c2 = (fast_exponent_mod e2 k p * (m % p)) % p) :
    (fast_exponent_mod c1 (p - 1 - d) p * (c2 % p)) % p = m := by
  have hfe := fun (b e : Nat) => fast_exponent_mod_eq b e p
  subst he2 hc1 hc2
  simp only [hfe]
  have hfermat : g ^ (p - 1) ≡ 1 [MOD p] := by
    have hco : Nat.Coprime g p := (hp.coprime_iff_not_dvd.mpr hg).symm
    have ht := Nat.ModEq.pow_totient hco
    rwa [Nat.totient_prime hp] at ht
  have hmod : ((g ^ (p - 1)) ^ k * m) % p = m := by
    have h1 : (g ^ (p - 1)) ^ k * m ≡ 1 ^ k * m [MOD p] :=
      (hfermat.pow k).mul (Nat.ModEq.refl m)
    rw [one_pow, one_mul] at h1
    rw [h1, Nat.mod_eq_of_lt hm]
  have hs : k * (p - 1 - d) + d * k = (p - 1) * k := by
    have h1 : (p - 1 - d) + d = p - 1 := by omega
    calc k * (p - 1 - d) + d * k = k * (p - 1 - d) + k * d := by rw [Nat.mul_comm d k]
      _ = k * ((p - 1 - d) + d) := by rw [Nat.mul_add]
      _ = (p - 1) * k := by rw [h1, Nat.mul_comm]
  rw [Nat.mod_mod, ← Nat.pow_mod, ← Nat.pow_mod, ← pow_mul, ← pow_mul,
    ← Nat.mul_mod (g ^ (d * k)) m p, ← Nat.mul_mod, ← mul_assoc, ← pow_add, hs,
    pow_mul]
  exact hmod

/-- C1 witness: the identity at `p = 101`, `g = 2`, `d = 7`, `k = 3`, `m = 5`. -/
theorem decrypt_inverts_encrypt_witness :
    Nat.Prime 101 ∧ ¬ (101 ∣ 2) ∧ 7 < 101 ∧ 3 < 101 ∧ 5 < 101 ∧
    (fast_exponent_mod (fast_exponent_mod 2 3 101) (101 - 1 - 7) 101 *
      ((fast_exponent_mod (fast_exponent_mod 2 7 101) 3 101 * (5 % 101)) % 101 % 101)) %
        101 = 5 :=
  ⟨by norm_num, by decide, by decide, by decide, by decide,
    decrypt_inverts_encrypt 101 2 7 3 5 (fast_exponent_mod 2 7 101)
      (fast_exponent_mod 2 3 101)
      ((fast_exponent_mod (fast_exponent_mod 2 7 101) 3 101 * (5 % 101)) % 101)
      (by norm_num) (by decide) (by decide) (by decide) (by decide) rfl rfl rfl⟩

/-- C9. Concrete scenario: `p = 101`, `g = 2`, `d = 7` gives
`e2 = modexp(2,7,101) = 27`; encrypting `m = 5` with `k = 3` gives
`c1 = modexp(2,3,101) = 8` and `c2 = (modexp(27,3,101) * 5) mod 101`;
the decryption formula recovers `5`. -/
theorem concrete_scenario_101 :
    fast_exponent_mod 2 7 101 = 27 ∧
    fast_exponent_mod 2 3 101 = 8 ∧
    (fast_exponent_mod 8 (101 - 1 - 7) 101 *
      ((fast_exponent_mod 27 3 101 * (5 % 101)) % 101 % 101)) % 101 = 5 := by
  decide

/-! ### The Miller–Rabin witness procedure -/

/-- The squaring loop `for i in range(0, t-1)` of `witness`: square `x`
modulo `n` up to `steps` times, returning `False` (not a witness) as soon as
`x` hits `n - 1`, and `True` (composite witness) if the loop completes. -/
def witness_loop (n : Nat) : Nat → Nat → Bool
  | _, 0 => true
  | x, steps + 1 =>
    let x2 := fast_exponent_mod x 2 n
    if x2 = n - 1 then false else witness_loop n x2 steps

/-- `witness(a, n, t, u)` from the source: `x = modexp(a, u, n)`; not a
witness if `x` is `1` or `n - 1`; otherwise square up to `t - 1` times. -/
def witness (a n t u : Nat) : Bool :=
  let x := fast_exponent_mod a u n
  if x = 1 ∨ x = n - 1 then false
  else witness_loop n x (t - 1)

example : witness 2 5 2 1 = false := by decide
example : witness 2 9 3 1 = true := by decide
example : witness 2 25 3 3 = true := by decide

/-- Squaring modulo `n` then raising to `2 ^ j` modulo `n` is raising to
`2 ^ (j + 1)` modulo `n`. -/
theorem sq_mod_pow (x n j : Nat) :
    (x ^ 2 % n) ^ (2 ^ j) % n = x ^ (2 ^ (j + 1)) % n := by
  rw [← Nat.pow_mod, ← pow_mul, pow_succ, Nat.mul_comm 2 (2 ^ j)]

/-- The squaring loop returns `False` exactly when some iterate
`x ^ (2 ^ j) mod n`, `1 ≤ j ≤ steps`, equals `n - 1`. -/
theorem witness_loop_false_iff (n : Nat) (hn : 1 ≤ n) : ∀ steps x,
    witness_loop n x steps = false ↔
      ∃ j, 1 ≤ j ∧ j ≤ steps ∧ x ^ (2 ^ j) % n = n - 1 := by
  intro steps
  induction steps with
  | zero =>
    intro x
    constructor
    · intro h; simp [witness_loop] at h
    · rintro ⟨j, hj1, hj2, -⟩; omega
  | succ s ih =>
    intro x
    have hx2 : fast_exponent_mod x 2 n = x ^ 2 % n :=
      fast_exponent_mod_eq x 2 n
    by_cases hc : x ^ 2 % n = n - 1
    · constructor
      · intro _
        exact ⟨1, Nat.le_refl 1, by omega, by rw [pow_one]; exact hc⟩
      · intro _
        simp [witness_loop, hx2, hc]
    · have heq : witness_loop n x (s + 1) = witness_loop n (x ^ 2 % n) s := by
        simp [witness_loop, hx2, hc]
      rw [heq, ih (x ^ 2 % n)]
      constructor
      · rintro ⟨j, hj1, hjs, hj⟩
        refine ⟨j + 1, by omega, by omega, ?_⟩
        rw [sq_mod_pow] at hj
        exact hj
      · rintro ⟨j, hj1, hjs, hj⟩
        have hj1' : j ≠ 1 := by
          intro h
          subst h
          rw [pow_one] at hj
          exact hc hj
        refine ⟨j - 1, by omega, by omega, ?_⟩
        rw [sq_mod_pow]
        have hj' : j - 1 + 1 = j := by omega
        rw [hj']
        exact hj

/-- C3. For `n - 1 = 2 ^ t * u` with `u` odd and `t ≥ 1`, and a base
`1 ≤ a ≤ n - 1`: `witness(a, n, t, u)` returns `False` iff
`a ^ u ≡ 1 (mod n)` or `a ^ (2 ^ i * u) ≡ n - 1 (mod n)` for some
`0 ≤ i ≤ t - 1`; otherwise it returns `True`. -/
theorem witness_false_iff (a n t u : Nat) (hn : n - 1 = 2 ^ t * u)
    (hu : u % 2 = 1) (ht : 1 ≤ t) (ha1 : 1 ≤ a) (ha2 : a ≤ n - 1) :
    witness a n t u = false ↔
      (a ^ u ≡ 1 [MOD n] ∨
        ∃ i, i ≤ t - 1 ∧ a ^ (2 ^ i * u) ≡ n - 1 [MOD n]) := by
  have h2t : 2 ≤ 2 ^ t := by
    calc 2 = 2 ^ 1 := (pow_one 2).symm
    _ ≤ 2 ^ t := Nat.pow_le_pow_right (by omega) ht
  have hu1 : 1 ≤ u := by omega
  have hn3 : 3 ≤ n := by
    have : 2 * 1 ≤ 2 ^ t * u := Nat.mul_le_mul h2t hu1
    omega
  have hone : 1 % n = 1 := Nat.mod_eq_of_lt (by omega)
  have hlast : (n - 1) % n = n - 1 := Nat.mod_eq_of_lt (by omega)
  have hx : fast_exponent_mod a u n = a ^ u % n :=
    fast_exponent_mod_eq a u n
  have hxp : ∀ j, (a ^ u % n) ^ (2 ^ j) % n = a ^ (2 ^ j * u) % n := by
    intro j
    rw [← Nat.pow_mod, ← pow_mul, Nat.mul_comm u (2 ^ j)]
  unfold witness
  rw [hx]
  by_cases h1 : a ^ u % n = 1 ∨ a ^ u % n = n - 1
  · simp only [h1, if_true]
    constructor
    · intro _
      rcases h1 with h1 | h1
      · exact Or.inl (by unfold Nat.ModEq; rw [hone]; exact h1)
      · refine Or.inr ⟨0, by omega, ?_⟩
        unfold Nat.ModEq
        rw [hlast, pow_zero, one_mul]
        exact h1
    · intro _; trivial
  · simp only [h1, if_false]
    rw [witness_loop_false_iff n (by omega) (t - 1) (a ^ u % n)]
    push_neg at h1
    constructor
    · rintro ⟨j, hj1, hjt, hj⟩
      refine Or.inr ⟨j, hjt, ?_⟩
      unfold Nat.ModEq
      rw [hlast, ← hxp j, hj]
    · rintro (hmod | ⟨i, hit, hmod⟩)
      · unfold Nat.ModEq at hmod
        rw [hone] at hmod
        exact absurd hmod h1.1
      · unfold Nat.ModEq at hmod
        rw [hlast] at hmod
        rcases Nat.eq_zero_or_pos i with hi0 | hi1
        · subst hi0
          rw [pow_zero, one_mul] at hmod
          exact absurd hmod h1.2
        · exact ⟨i, hi1, hit, by rw [hxp i]; exact hmod⟩

/-- C3 witness: `n = 5`, `t = 2`, `u = 1`, base `a = 2`. -/
theorem witness_false_iff_witness :
    (5 - 1 = 2 ^ 2 * 1 ∧ 1 % 2 = 1 ∧ 1 ≤ 2 ∧ 1 ≤ 2 ∧ 2 ≤ 5 - 1) ∧
    (witness 2 5 2 1 = false ↔
      (2 ^ 1 ≡ 1 [MOD 5] ∨
        ∃ i, i ≤ 2 - 1 ∧ 2 ^ (2 ^ i * 1) ≡ 5 - 1 [MOD 5])) :=
  ⟨by decide,
    witness_false_iff 2 5 2 1 (by decide) (by decide) (by decide) (by decide)
      (by decide)⟩

/-! ### The Miller–Rabin driver -/

/-- The `while (u & 1) != 1` factoring loop of `miller_rabin`, with fuel:
halve `u`, counting halvings in `t`, until `u` is odd.  `u` is an integer
because Python evaluates `n - 1` to `-1` for `n = 0`; `u & 1` is `u.emod 2`
and `u //= 2` is exact halving since it only runs on even `u`. -/
def factor_twos_fuel : Nat → Int → Nat → Option (Nat × Int)
  | 0, _, _ => none
  | fuel + 1, u, t =>
    if u.emod 2 = 1 then some (t, u) else factor_twos_fuel fuel (u / 2) (t + 1)

/-- Factor `u` as `2 ^ t * u'` with `u'` odd.  Fuel `|u| + 1` suffices
whenever the source loop terminates; the loop runs forever exactly for
`u = 0` (i.e. `n = 1`), modelled by `none`. -/
def factor_twos (u : Int) : Option (Nat × Int) :=
  factor_twos_fuel (u.natAbs + 1) u 0

example : factor_twos 24 = some (3, 3) := by decide
example : factor_twos (-1) = some (0, -1) := by decide
example : factor_twos 0 = none := by decide

/-- The `for i in range(0, s)` loop of `miller_rabin`: `draws i` models the
value of `random.randrange(2, n - 1)` drawn at iteration `i`.  That call
raises `ValueError` (modelled `none`) when its range is empty, i.e. when
`n - 1 ≤ 2`, that is `n ≤ 3`. -/
def miller_rabin_go (n t u : Nat) (draws : Nat → Nat) : Nat → Nat → Option Bool
  | _, 0 => some true
  | i, rem + 1 =>
    if n ≤ 3 then none
    else if witness (draws i) n t u then some false
    else miller_rabin_go n t u draws (i + 1) rem

/-- `miller_rabin(n, s)` from the source, with the `s` random bases supplied
by `draws`.  `none` models an unhandled exception or non-termination. -/
def miller_rabin (n s : Nat) (draws : Nat → Nat) : Option Bool :=
  match factor_twos ((n : Int) - 1) with
  | none => none
  | some (t, u) => miller_rabin_go n t u.toNat draws 0 s

example : miller_rabin 101 3 (fun _ => 2) = some true := by decide
example : miller_rabin 25 3 (fun _ => 2) = some false := by decide

/-- C4 counterexample: at `n = 2 < 4` with `0` rounds, `miller_rabin`
returns `True`, not `False` (and at `n = 3 < 4` with one round, the base
draw `random.randrange(2, 2)` raises `ValueError`, again not `False`). -/
theorem miller_rabin_small_counterexample :
    miller_rabin 2 0 (fun _ => 0) = some true ∧
    miller_rabin 2 0 (fun _ => 0) ≠ some false ∧
    miller_rabin 3 1 (fun _ => 2) = none := by decide

/-- C4 amended: for `n < 4`, `miller_rabin` never returns `False`; instead,
for `n = 1` the factoring loop fails to terminate (`none`), and otherwise
the driver returns `True` when `rounds = 0` and raises `ValueError` from
`random.randrange(2, n - 1)` (`none`) when `rounds ≥ 1`. -/
theorem miller_rabin_small (n s : Nat) (draws : Nat → Nat) (h : n < 4) :
    miller_rabin n s draws =
      if n = 1 then none else if s = 0 then some true else none := by
  interval_cases n
  · unfold miller_rabin
    rw [show (((0 : Nat) : Int) - 1) = -1 from by norm_num,
      show factor_twos (-1) = some (0, -1) from by decide]
    cases s with
    | zero => rfl
    | succ rem => simp [miller_rabin_go]
  · unfold miller_rabin
    rw [show (((1 : Nat) : Int) - 1) = 0 from by norm_num,
      show factor_twos 0 = none from by decide]
    simp
  · unfold miller_rabin
    rw [show (((2 : Nat) : Int) - 1) = 1 from by norm_num,
      show factor_twos 1 = some (0, 1) from by decide]
    cases s with
    | zero => rfl
    | succ rem => simp [miller_rabin_go]
  · unfold miller_rabin
    rw [show (((3 : Nat) : Int) - 1) = 2 from by norm_num,
      show factor_twos 2 = some (1, 1) from by decide]
    cases s with
    | zero => rfl
    | succ rem => simp [miller_rabin_go]

/-- C4 amended witness: the amended statement at `n = 2`, `s = 1`. -/
theorem miller_rabin_small_witness :
    (2 : Nat) < 4 ∧
    miller_rabin 2 1 (fun _ => 0) =
      if (2 : Nat) = 1 then none else if (1 : Nat) = 0 then some true else none :=
  ⟨by decide, miller_rabin_small 2 1 (fun _ => 0) (by decide)⟩

/-! ### The safe-prime search of `keygen` -/

/-- One full candidate evaluation of the safe-prime search in `keygen`:
`r` models `secrets.randbits(32)`, and `qdraws`/`pdraws` supply the random
bases of the two `miller_rabin(·, 100)` calls.  `q = r | 2147483649` forces
the 32nd bit high and the number odd; the candidate is accepted (the loops
exit with `some (p, q)`) exactly when `q` passes `miller_rabin` with
`q % 12 = 5` and `p = 2q + 1` passes `miller_rabin`. -/
def safe_prime_accept (r : Nat) (qdraws pdraws : Nat → Nat) :
    Option (Nat × Nat) :=
  let q := r ||| 2147483649
  if miller_rabin q 100 qdraws = some true ∧ q % 12 = 5 then
    let p := 2 * q + 1
    if miller_rabin p 100 pdraws = some true then some (p, q) else none
  else none

/-- C5. Every pair `(p, q)` accepted by the safe-prime search satisfies
`p = 2q + 1`, `q ≡ 5 (mod 12)`, `q` odd with bit 31 set and `q < 2^32`,
and both `q` and `p` passed `miller_rabin` with 100 rounds. -/
theorem safe_prime_accept_invariant (r : Nat) (qdraws pdraws : Nat → Nat)
    (p q : Nat) (hr : r < 2 ^ 32)
    (h : safe_prime_accept r qdraws pdraws = some (p, q)) :
    p = 2 * q + 1 ∧ q % 12 = 5 ∧ q % 2 = 1 ∧ q.testBit 31 = true ∧
      q < 2 ^ 32 ∧ miller_rabin q 100 qdraws = some true ∧
      miller_rabin p 100 pdraws = some true := by
  simp only [safe_prime_accept] at h
  split_ifs at h with h1 h2
  · obtain ⟨hmr, h12⟩ := h1
    rw [Option.some.injEq, Prod.mk.injEq] at h
    obtain ⟨hp, hq⟩ := h
    subst hq
    subst hp
    refine ⟨rfl, h12, ?_, ?_, ?_, hmr, h2⟩
    · have hb : (r ||| 2147483649).testBit 0 = true := by
        rw [Nat.testBit_or]
        simp [show Nat.testBit 2147483649 0 = true from by decide]
      simpa using hb
    · rw [Nat.testBit_or]
      simp [show Nat.testBit 2147483649 31 = true from by decide]
    · exact Nat.or_lt_two_pow hr (by decide)

set_option maxRecDepth 40000 in
/-- C5 witness: the candidate `r = 2147483693` (a prime `≡ 5 (mod 12)` whose
double plus one is also prime) is accepted with base `2` drawn in every
Miller–Rabin round, and the invariant holds for it. -/
theorem safe_prime_accept_invariant_witness :
    (2147483693 : Nat) < 2 ^ 32 ∧
      (4294967387 = 2 * 2147483693 + 1 ∧ 2147483693 % 12 = 5 ∧
        2147483693 % 2 = 1 ∧ Nat.testBit 2147483693 31 = true ∧
        2147483693 < 2 ^ 32 ∧
        miller_rabin 2147483693 100 (fun _ => 2) = some true ∧
        miller_rabin 4294967387 100 (fun _ => 2) = some true) :=
  ⟨by decide,
    safe_prime_accept_invariant 2147483693 (fun _ => 2) (fun _ => 2)
      4294967387 2147483693 (by decide) (by decide)⟩

/-! ### Key-pair derivation in `keygen` -/

/-- The key-pair construction at the end of `keygen`, after the safe-prime
search produced `p`: generator `g = 2`, secret key `d` (the value of
`secrets.randbelow(p)`), public value `e2 = fast_exponent_mod(g, d, p)`;
the function returns `((p, g, e2), (p, g, d))`. -/
def keygen_keys (p d : Nat) : (Nat × Nat × Nat) × (Nat × Nat × Nat) :=
  let g := 2
  let e2 := fast_exponent_mod g d p
  ((p, g, e2), (p, g, d))

/-- C6. Every key pair returned by `keygen` has the form
`((p, g, e2), (p, g, d))`: the public and private triples share `p` and
`g`, the generator is fixed at `g = 2`, the secret exponent satisfies
`0 ≤ d < p` (it is `secrets.randbelow(p)`), and `e2 = modexp(g, d, p)`. -/
theorem keygen_keys_consistent (p d : Nat) (hd : d < p) :
    (keygen_keys p d).1.1 = (keygen_keys p d).2.1 ∧
    (keygen_keys p d).1.2.1 = (keygen_keys p d).2.2.1 ∧
    (keygen_keys p d).1.2.1 = 2 ∧
    (keygen_keys p d).2.2.2 < p ∧
    (keygen_keys p d).1.2.2 =
      fast_exponent_mod (keygen_keys p d).1.2.1 (keygen_keys p d).2.2.2
        (keygen_keys p d).1.1 :=
  ⟨rfl, rfl, rfl, hd, rfl⟩

/-- C6 witness: the key-pair shape at `p = 101`, `d = 7`. -/
theorem keygen_keys_consistent_witness :
    7 < 101 ∧
      ((keygen_keys 101 7).1.1 = (keygen_keys 101 7).2.1 ∧
        (keygen_keys 101 7).1.2.1 = (keygen_keys 101 7).2.2.1 ∧
        (keygen_keys 101 7).1.2.1 = 2 ∧
        (keygen_keys 101 7).2.2.2 < 101 ∧
        (keygen_keys 101 7).1.2.2 =
          fast_exponent_mod (keygen_keys 101 7).1.2.1 (keygen_keys 101 7).2.2.2
            (keygen_keys 101 7).1.1) :=
  ⟨by decide, keygen_keys_consistent 101 7 (by decide)⟩

/-! ### Block packing (`getblock`) -/

/-- One `char = file.read(1)` step of the `for i in range(4)` loop of
`getblock`, acting on `(block, eof, remaining input)`: at end of input the
character is replaced by `'0'` (`ord('0') = 48`) and the eof flag is set;
the byte is folded in by `block = (block << 8) ^ ord(char)`. -/
def getblock_read (s : Nat × Bool × List Nat) : Nat × Bool × List Nat :=
  match s with
  | (block, _, []) => ((block <<< 8) ^^^ 48, true, [])
  | (block, eof, c :: rest) => ((block <<< 8) ^^^ c, eof, rest)

/-- `getblock(file)` from the source: four read steps producing a big-endian
32-bit block together with the eof flag and the unread rest of the input. -/
def getblock (input : List Nat) : Nat × Bool × List Nat :=
  getblock_read (getblock_read (getblock_read (getblock_read (0, false, input))))

example : getblock [72, 105, 33, 10] = (0x4869210A, false, []) := by decide
example : getblock [72, 105] = (0x48693030, true, []) := by decide
example : getblock [] = (0x30303030, true, []) := by decide

/-- C7 counterexample: with the single remaining byte `65` (`'A'`), the three
padding bytes of the block are `48` (`ord('0')`), not `0`: the block equals
the accumulation with `48`-padding and differs from the accumulation with
`0`-padding. -/
theorem getblock_pad_counterexample :
    (getblock [65]).2.1 = true ∧
    (getblock [65]).1 =
      (((((((0 <<< 8) ^^^ 65) <<< 8) ^^^ 48) <<< 8) ^^^ 48) <<< 8) ^^^ 48 ∧
    (getblock [65]).1 ≠
      (((((((0 <<< 8) ^^^ 65) <<< 8) ^^^ 0) <<< 8) ^^^ 0) <<< 8) ^^^ 0 ∧
    (getblock [65]).1 &&& 255 = 48 := by
  decide

/-- C7 amended: when fewer than 4 input bytes remain, `getblock` sets the
eof flag and pads the missing trailing bytes of the block with the byte
value `48` (the character `'0'`), so decrypted padding appears as `'0'`
characters, not null bytes. -/
theorem getblock_pads_with_48 (input : List Nat) (h : input.length < 4) :
    (getblock input).2.1 = true ∧
    (getblock input).1 =
      (input ++ List.replicate (4 - input.length) 48).foldl
        (fun block c => (block <<< 8) ^^^ c) 0 := by
  match input with
  | [] => exact ⟨rfl, rfl⟩
  | [a] => exact ⟨rfl, rfl⟩
  | [a, b] => exact ⟨rfl, rfl⟩
  | [a, b, c] => exact ⟨rfl, rfl⟩
  | a :: b :: c :: d :: rest => simp at h; omega

/-- C7 amended witness: the padding behaviour at the one-byte input `[65]`. -/
theorem getblock_pads_with_48_witness :
    ([65] : List Nat).length < 4 ∧
      ((getblock [65]).2.1 = true ∧
        (getblock [65]).1 =
          ([65] ++ List.replicate (4 - ([65] : List Nat).length) 48).foldl
            (fun block c => (block <<< 8) ^^^ c) 0) :=
  ⟨by decide, getblock_pads_with_48 [65] (by decide)⟩

/-! ### Block unpacking inverts block packing -/

/-- Xor with shifted-in low bits is addition: for `b < 2 ^ k`,
`(a * 2 ^ k) ^^^ b = a * 2 ^ k + b`. -/
theorem mul_pow_xor_eq_add (k : Nat) : ∀ a b : Nat, b < 2 ^ k →
    (a * 2 ^ k) ^^^ b = a * 2 ^ k + b := by
  induction k with
  | zero =>
    intro a b hb
    interval_cases b
    simp
  | succ k ih =>
    intro a b hb
    have hb2 : b / 2 < 2 ^ k := by omega
    have hdiv : ((a * 2 ^ (k + 1)) ^^^ b) / 2 = a * 2 ^ k + b / 2 := by
      rw [Nat.xor_div_two]
      have h1 : a * 2 ^ (k + 1) / 2 = a * 2 ^ k := by
        rw [pow_succ, ← Nat.mul_assoc]
        exact Nat.mul_div_cancel _ (by norm_num)
      rw [h1]
      exact ih a (b / 2) hb2
    have hae : a * 2 ^ (k + 1) % 2 = 0 := by
      have h2 : 2 ∣ a * 2 ^ (k + 1) :=
        Dvd.dvd.mul_left (dvd_pow_self 2 (Nat.succ_ne_zero k)) a
      omega
    have hxm : ((a * 2 ^ (k + 1)) ^^^ b) % 2 = 1 ↔ b % 2 = 1 := by
      rw [Nat.xor_mod_two_eq_one, hae]
      simp
    have hmod : ((a * 2 ^ (k + 1)) ^^^ b) % 2 = b % 2 := by
      rcases Nat.mod_two_eq_zero_or_one b with hB | hB
      · have hX : ¬ ((a * 2 ^ (k + 1)) ^^^ b) % 2 = 1 := by rw [hxm]; omega
        omega
      · have hX : ((a * 2 ^ (k + 1)) ^^^ b) % 2 = 1 := hxm.mpr hB
        omega
    have h2 : a * 2 ^ (k + 1) = 2 * (a * 2 ^ k) := by rw [pow_succ]; ring
    omega

/-- C8. Unpacking inverts packing: for bytes `b1 b2 b3 b4 ≤ 255`, the block
`m` accumulated by `getblock` from exactly those four bytes decomposes back
into them by the shifts and masks of `decrypt`. -/
theorem unpack_inverts_pack (b1 b2 b3 b4 : Nat)
    (h1 : b1 ≤ 255) (h2 : b2 ≤ 255) (h3 : b3 ≤ 255) (h4 : b4 ≤ 255) :
    ((getblock [b1, b2, b3, b4]).1 >>> 24) &&& 0xFF = b1 ∧
    ((getblock [b1, b2, b3, b4]).1 >>> 16) &&& 0xFF = b2 ∧
    ((getblock [b1, b2, b3, b4]).1 >>> 8) &&& 0xFF = b3 ∧
    (getblock [b1, b2, b3, b4]).1 &&& 0xFF = b4 := by
  have step : ∀ x y : Nat, y ≤ 255 → x <<< 8 ^^^ y = x * 256 + y := by
    intro x y hy
    rw [Nat.shiftLeft_eq]
    have h := mul_pow_xor_eq_add 8 x y (by omega)
    norm_num at h ⊢
    exact h
  have ha1 : (0 : Nat) <<< 8 ^^^ b1 = b1 := by
    rw [step 0 b1 h1]
    omega
  have hm : (getblock [b1, b2, b3, b4]).1 =
      ((b1 * 256 + b2) * 256 + b3) * 256 + b4 := by
    calc (getblock [b1, b2, b3, b4]).1
        = ((((0 : Nat) <<< 8 ^^^ b1) <<< 8 ^^^ b2) <<< 8 ^^^ b3) <<< 8 ^^^ b4 :=
          rfl
      _ = ((b1 <<< 8 ^^^ b2) <<< 8 ^^^ b3) <<< 8 ^^^ b4 := by rw [ha1]
      _ = ((b1 * 256 + b2) <<< 8 ^^^ b3) <<< 8 ^^^ b4 := by rw [step b1 b2 h2]
      _ = ((b1 * 256 + b2) * 256 + b3) <<< 8 ^^^ b4 := by
          rw [step (b1 * 256 + b2) b3 h3]
      _ = ((b1 * 256 + b2) * 256 + b3) * 256 + b4 := by
          rw [step ((b1 * 256 + b2) * 256 + b3) b4 h4]
  have hmask : ∀ x : Nat, x &&& 0xFF = x % 256 := by
    intro x
    have h := Nat.and_pow_two_sub_one_eq_mod x 8
    norm_num at h
    exact h
  rw [hm, Nat.shiftRight_eq_div_pow, Nat.shiftRight_eq_div_pow,
    Nat.shiftRight_eq_div_pow, hmask, hmask, hmask, hmask]
  norm_num
  omega

/-- C8 witness: the four bytes `72, 105, 33, 10`. -/
theorem unpack_inverts_pack_witness :
    (72 ≤ 255 ∧ 105 ≤ 255 ∧ 33 ≤ 255 ∧ 10 ≤ 255) ∧
      (((getblock [72, 105, 33, 10]).1 >>> 24) &&& 0xFF = 72 ∧
        ((getblock [72, 105, 33, 10]).1 >>> 16) &&& 0xFF = 105 ∧
        ((getblock [72, 105, 33, 10]).1 >>> 8) &&& 0xFF = 33 ∧
        (getblock [72, 105, 33, 10]).1 &&& 0xFF = 10) :=
  ⟨by decide,
    unpack_inverts_pack 72 105 33 10 (by decide) (by decide) (by decide)
      (by decide)⟩

/-! ### The encryption loop -/

/-- When a `getblock` read leaves the eof flag low, all four reads consumed a
byte, so exactly four bytes of input were consumed. -/
theorem getblock_not_eof_length (input : List Nat) :
    (getblock input).2.1 = false →
      (getblock input).2.2.length + 4 = input.length := by
  match input with
  | [] => intro h; simp [getblock, getblock_read] at h
  | [a] => intro h; simp [getblock, getblock_read] at h
  | [a, b] => intro h; simp [getblock, getblock_read] at h
  | [a, b, c] => intro h; simp [getblock, getblock_read] at h
  | a :: b :: c :: d :: rest => intro _; simp [getblock, getblock_read]

/-- The `while True` loop of `encrypt`: read a block, draw the ephemeral
secret `k = ks i` (the value of `secrets.randbelow(p)` at iteration `i`),
emit the ciphertext pair `(c1, c2)`, and stop after the block whose read
hit the end of the input. -/
def encrypt_go (p g e2 : Nat) (ks : Nat → Nat) (i : Nat)
    (input : List Nat) : List (Nat × Nat) :=
  let r := getblock input
  let pair := (fast_exponent_mod g (ks i) p,
    (fast_exponent_mod e2 (ks i) p * (r.1 % p)) % p)
  if h : r.2.1 then [pair]
  else pair :: encrypt_go p g e2 ks (i + 1) r.2.2
termination_by input.length
decreasing_by
  have hlen := getblock_not_eof_length input (by simpa using h)
  omega

/-- `encrypt(key_file, text_file)` from the source, at the level of the
ciphertext pairs written: public key `(p, g, e2)`, ephemeral draws `ks`,
input bytes `input`. -/
def encrypt (p g e2 : Nat) (ks : Nat → Nat) (input : List Nat) :
    List (Nat × Nat) :=
  encrypt_go p g e2 ks 0 input

/-- The encryption loop always emits at least one pair. -/
theorem encrypt_go_length_pos (p g e2 : Nat) (ks : Nat → Nat) (i : Nat)
    (input : List Nat) : 1 ≤ (encrypt_go p g e2 ks i input).length := by
  rw [encrypt_go]
  split
  · simp
  · simp

/-- On input whose length is a multiple of four, the encryption loop emits
`length / 4 + 1` pairs, and the final pair encrypts the all-padding block
`(getblock []).1`, with the ephemeral draw of index `i + length / 4`. -/
theorem encrypt_go_spec (p g e2 : Nat) (ks : Nat → Nat) : ∀ n input,
    List.length input = n → n % 4 = 0 → ∀ i,
    (encrypt_go p g e2 ks i input).length = n / 4 + 1 ∧
    (encrypt_go p g e2 ks i input).getLast? =
      some (fast_exponent_mod g (ks (i + n / 4)) p,
        (fast_exponent_mod e2 (ks (i + n / 4)) p * ((getblock []).1 % p)) % p) := by
  intro n
  induction n using Nat.strong_induction_on with
  | _ n ih =>
    intro input hlen hmod i
    match input with
    | [] =>
      have hn : n = 0 := by simpa using hlen.symm
      subst hn
      rw [encrypt_go]
      exact ⟨rfl, rfl⟩
    | [a] => rw [← hlen] at hmod; simp at hmod
    | [a, b] => rw [← hlen] at hmod; simp at hmod
    | [a, b, c] => rw [← hlen] at hmod; simp at hmod
    | a :: b :: c :: d :: rest =>
      have hrest : rest.length + 4 = n := by simpa using hlen
      have hrm : rest.length % 4 = 0 := by omega
      obtain ⟨ihlen, ihlast⟩ :=
        ih rest.length (by omega) rest rfl hrm (i + 1)
      rw [encrypt_go]
      simp only [getblock, getblock_read]
      rw [dif_neg (by simp)]
      constructor
      · simp only [List.length_cons, ihlen]
        omega
      · have hne : encrypt_go p g e2 ks (i + 1) rest ≠ [] := by
          intro hnil
          rw [hnil] at ihlen
          simp at ihlen
        obtain ⟨x, xs, hxx⟩ := List.exists_cons_of_ne_nil hne
        rw [hxx, List.getLast?_cons_cons, ← hxx, ihlast]
        have hidx : i + 1 + rest.length / 4 = i + n / 4 := by omega
        rw [hidx]
        rfl

/-- C10. `getblock` only sets the end-of-input flag when a read returns no
byte, so on input whose byte length is an exact multiple of 4 (including
empty input) `encrypt` emits one extra final pair beyond the pairs covering
the input, encrypting the all-padding block `(getblock []).1`; and on any
input `encrypt` emits at least one pair. -/
theorem encrypt_extra_padding_block (p g e2 : Nat) (ks : Nat → Nat) :
    (∀ input : List Nat, 1 ≤ (encrypt p g e2 ks input).length) ∧
    ∀ input : List Nat, input.length % 4 = 0 →
      (encrypt p g e2 ks input).length = input.length / 4 + 1 ∧
      (encrypt p g e2 ks input).getLast? =
        some (fast_exponent_mod g (ks (input.length / 4)) p,
          (fast_exponent_mod e2 (ks (input.length / 4)) p *
            ((getblock []).1 % p)) % p) := by
  constructor
  · intro input
    exact encrypt_go_length_pos p g e2 ks 0 input
  · intro input hmod
    have h := encrypt_go_spec p g e2 ks input.length input rfl hmod 0
    simpa [encrypt] using h

/-- C10 witness: a four-byte input produces two pairs, the second encrypting
the all-padding block; the empty input produces one pair. -/
theorem encrypt_extra_padding_block_witness :
    ([72, 105, 33, 10] : List Nat).length % 4 = 0 ∧
      (encrypt 101 2 27 (fun _ => 3) [72, 105, 33, 10]).length =
        ([72, 105, 33, 10] : List Nat).length / 4 + 1 ∧
      (encrypt 101 2 27 (fun _ => 3) [72, 105, 33, 10]).getLast? =
        some (fast_exponent_mod 2 3 101,
          (fast_exponent_mod 27 3 101 * ((getblock []).1 % 101)) % 101) ∧
      1 ≤ (encrypt 101 2 27 (fun _ => 3) []).length :=
  ⟨by decide,
    ((encrypt_extra_padding_block 101 2 27 (fun _ => 3)).2
      [72, 105, 33, 10] (by decide)).1,
    ((encrypt_extra_padding_block 101 2 27 (fun _ => 3)).2
      [72, 105, 33, 10] (by decide)).2,
    (encrypt_extra_padding_block 101 2 27 (fun _ => 3)).1 []⟩
